import Mathlib

/-!
Verification of the response-extraction logic of the Career Catalyst backend
(`backend/main.py`).

The Python code extracts two strings, `resume_content` and
`cover_letter_content`, from a model reply that carries structured tool
invocations and/or raw text.  The extraction core is `manual_save_fallback`
(regex-based text splitting) and the response-processing tail of the
`/optimize` request handler `optimize_career`.

Strings are embedded as `List Char` (the character sequence of a Python
`str`).  The three regular expressions used by the source are embedded as
executable scanning functions whose behaviour matches Python's `re` engine
on the concrete patterns:

* `re.search(r"##\s*Tailored Resume\s*\n(.*?)(?=\n##|$)", t, DOTALL|IGNORECASE)`
* `re.search(r"##\s*Cover Letter\s*\n(.*?)(?=$)", t, DOTALL|IGNORECASE)`
* `re.findall(r"(three backticks)(?:markdown)?\n(.*?)(three backticks)", t, DOTALL)`

Notes on the translation of the regex semantics:

* `search` returns the match with the leftmost starting position; the
  embedding scans positions left to right.
* In `##\s*LIT\s*\n` the literal `LIT` starts with a letter, so the greedy
  `\s*` before it is equivalent to skipping the maximal whitespace run;
  the greedy `\s*\n` after it consumes the leading whitespace run up to and
  including its last newline (backtracking from the longest run).
* The lazy group `(.*?)(?=\n##|$)` (with DOTALL) captures up to the first
  later occurrence of newline-hash-hash, otherwise up to `$`; without
  MULTILINE, `$` matches at end of string or just before a single final
  newline.  The lazy group `(.*?)(?=$)` captures everything up to that `$`.
* In the fence pattern the lazy group captures up to the first later
  occurrence of three consecutive backticks; `findall` resumes scanning
  after the closing fence.
* Python's `\s` and `str.strip()` additionally accept some Unicode
  whitespace; the embedding uses the ASCII whitespace class
  (space, tab, newline, carriage return, vertical tab, form feed),
  which is faithful on all ASCII text.
-/

/-- Whitespace class of Python's `\s` / `str.strip()`, restricted to ASCII. -/
def isPySpace (c : Char) : Bool :=
  c == ' ' || c == '\t' || c == '\n' || c == '\r' || c == '\x0b' || c == '\x0c'

/-- Python `str.strip()`: remove leading and trailing whitespace. -/
def pyStrip (s : List Char) : List Char :=
  ((s.dropWhile isPySpace).reverse.dropWhile isPySpace).reverse

/-- The backtick character (avoids a literal backtick in the source text). -/
def backtick : Char := Char.ofNat 96

/-- Case-insensitive literal match (for `re.IGNORECASE` on an ASCII literal
given in lower case): returns the remainder after the literal. -/
def stripPrefixCI : List Char → List Char → Option (List Char)
  | [], s => some s
  | _ :: _, [] => none
  | p :: ps, c :: cs => if c.toLower = p then stripPrefixCI ps cs else none

/-- Greedy `\s*\n` at the head of the input: consumes the leading whitespace
run up to and including its last newline; fails when the leading whitespace
run contains no newline. -/
def afterLastNl : List Char → Option (List Char)
  | [] => none
  | c :: cs =>
    if isPySpace c then
      match afterLastNl cs with
      | some r => some r
      | none => if c = '\n' then some cs else none
    else none

/-- Match of the heading part `##\s*LIT\s*\n` (IGNORECASE) at the head of the
input; returns the position right after the heading (the start of the lazy
capture group). -/
def matchHeadingAt (lit : List Char) (s : List Char) : Option (List Char) :=
  match s with
  | a :: b :: rest =>
    if a = '#' ∧ b = '#' then
      match stripPrefixCI lit (rest.dropWhile isPySpace) with
      | some r2 => afterLastNl r2
      | none => none
    else none
  | _ => none

/-- Lazy capture `(.*?)(?=\n##|$)` (DOTALL, no MULTILINE): stops at the first
occurrence of newline-hash-hash, or at end of string, or just before a single
final newline. -/
def captureResume : List Char → List Char
  | '\n' :: '#' :: '#' :: _ => []
  | ['\n'] => []
  | [] => []
  | c :: cs => c :: captureResume cs

/-- Lazy capture `(.*?)(?=$)` (no MULTILINE): everything up to end of string,
excluding a single final newline when present. -/
def captureCover : List Char → List Char
  | [] => []
  | c :: cs =>
    match cs with
    | [] => if c = '\n' then [] else [c]
    | d :: ds => c :: captureCover (d :: ds)

/-- Leftmost `re.search` for a heading pattern: scans positions left to
right, and on the first heading match returns the captured group. -/
def searchHeading (lit : List Char) (cap : List Char → List Char) :
    List Char → Option (List Char)
  | [] => none
  | c :: cs =>
    match matchHeadingAt lit (c :: cs) with
    | some rest => some (cap rest)
    | none => searchHeading lit cap cs

def tailoredResumeLit : List Char := "tailored resume".data

def coverLetterLit : List Char := "cover letter".data

/-- Embedding of `re.search(r"##\s*Tailored Resume\s*\n(.*?)(?=\n##|$)", t,
re.DOTALL | re.IGNORECASE)`, returning `group(1)` (main.py line 92). -/
def resumeSearch (t : List Char) : Option (List Char) :=
  searchHeading tailoredResumeLit captureResume t

/-- Embedding of `re.search(r"##\s*Cover Letter\s*\n(.*?)(?=$)", t,
re.DOTALL | re.IGNORECASE)`, returning `group(1)` (main.py line 105). -/
def coverSearch (t : List Char) : Option (List Char) :=
  searchHeading coverLetterLit captureCover t

/-- Test for three consecutive backticks at the head of the input. -/
def startsWithTriple (s : List Char) : Bool :=
  match s with
  | a :: b :: c :: _ => a == backtick && b == backtick && c == backtick
  | _ => false

/-- The optional language tag of the fence pattern: `(?:markdown)?\n`. -/
def mdTag : List Char := "markdown\n".data

/-- Consume `(?:markdown)?\n` at the head of the input (greedy optional with
backtracking: the tagged branch is preferred, the branches cannot overlap). -/
def afterFenceOpen (r : List Char) : Option (List Char) :=
  if mdTag.isPrefixOf r then some (r.drop mdTag.length)
  else if r.head? = some '\n' then some r.tail
  else none

/-- Lazy capture up to the first later occurrence of three consecutive
backticks (the closing fence); returns the group and the remainder after the
closing fence, failing when no closing fence exists. -/
def grabToFence : List Char → Option (List Char × List Char)
  | [] => none
  | c :: cs =>
    if startsWithTriple (c :: cs) then some ([], cs.drop 2)
    else
      match grabToFence cs with
      | some (g, r) => some (c :: g, r)
      | none => none

/-- Attempt of the full fence pattern at the head of the input: opening
fence, optional tag, newline, lazy group, closing fence. -/
def tryFenceAt (s : List Char) : Option (List Char × List Char) :=
  if startsWithTriple s then
    match afterFenceOpen (s.drop 3) with
    | some r => grabToFence r
    | none => none
  else none

/-- Fuelled scan of `re.findall`: attempt the fence pattern at each position
left to right, resuming after the closing fence of each match.  The fuel only
serves structural termination; `codeBlocks` supplies enough fuel. -/
def scanBlocksFuel : Nat → List Char → List (List Char)
  | 0, _ => []
  | _ + 1, [] => []
  | n + 1, c :: cs =>
    match tryFenceAt (c :: cs) with
    | some (g, rest) => g :: scanBlocksFuel n rest
    | none => scanBlocksFuel n cs

/-- Embedding of `re.findall` of the fenced-code-block pattern
(main.py line 97): the list of captured block contents in order. -/
def codeBlocks (t : List Char) : List (List Char) :=
  scanBlocksFuel t.length t

/-- Occurrence test for three consecutive backticks anywhere in the input
(used to reason about strings in which the fence pattern cannot match). -/
def containsTriple : List Char → Bool
  | [] => false
  | c :: cs => startsWithTriple (c :: cs) || containsTriple cs

/-- Result record of the extraction: the two string fields of the caller
contract (`final_output` in main.py). -/
structure ExtractionResult where
  resume_content : List Char
  cover_letter_content : List Char
deriving DecidableEq, Repr

/-- Lines 88-101 of main.py: the resume-heading attempt and, when it fails,
the fenced-code-block fallback.  Returns the pair
(resume_content, cover_letter_content) as of line 101. -/
def fallbackStage1 (full_text_response : List Char) : List Char × List Char :=
  match resumeSearch full_text_response with
  | some g => (pyStrip g, [])
  | none =>
    let code_blocks := codeBlocks full_text_response
    (match code_blocks with
     | b :: _ => pyStrip b
     | [] => [],
     match code_blocks with
     | _ :: b :: _ => pyStrip b
     | _ => [])

/-- Lines 88-107 of main.py: `fallbackStage1` followed by the cover-letter
heading attempt, which runs only when the cover field is still empty. -/
def fallbackPartial (full_text_response : List Char) : List Char × List Char :=
  let s := fallbackStage1 full_text_response
  (s.1,
   if s.2 = [] then
     match coverSearch full_text_response with
     | some g => pyStrip g
     | none => s.2
   else s.2)

/-- Embedding of `manual_save_fallback` (main.py lines 83-116):
`fallbackPartial` followed by the last-resort step, which assigns the entire
text to the resume field when both fields are still empty. -/
def manual_save_fallback (full_text_response : List Char) : ExtractionResult :=
  let p := fallbackPartial full_text_response
  ⟨if p.1 = [] ∧ p.2 = [] then full_text_response else p.1, p.2⟩

/-- One structured tool invocation of the model reply: `call.name` and
`call.args["content"]` (the tool schemas declare `content` as required). -/
structure FunctionCall where
  name : List Char
  content : List Char
deriving DecidableEq, Repr

/-- The part of the model reply the handler reads: `response.function_calls`
(absent/None embedded as the empty list) and `response.text` (None embedded
as `none`). -/
structure ModelResponse where
  function_calls : List FunctionCall
  text : Option (List Char)
deriving DecidableEq, Repr

def saveResumeName : List Char := "save_tailored_resume".data

def saveCoverName : List Char := "save_cover_letter".data

/-- The tool-call loop of `optimize_career` (main.py lines 175-182): state is
(resume_content, cover_letter_content, tool_calls_found). -/
def scanCalls : List Char × List Char × Bool → List FunctionCall →
    List Char × List Char × Bool
  | st, [] => st
  | (r, c, f), call :: rest =>
    if call.name = saveResumeName then scanCalls (call.content, c, true) rest
    else if call.name = saveCoverName then scanCalls (r, call.content, true) rest
    else scanCalls (r, c, f) rest

/-- Response processing of `optimize_career` (main.py lines 170-195): the
tool-call loop, then the text fallback for fields that are still empty. -/
def process_response (response : ModelResponse) : ExtractionResult :=
  let st := scanCalls ([], [], false) response.function_calls
  let resume0 := st.1
  let cover0 := st.2.1
  let tool_calls_found := st.2.2
  if tool_calls_found = false ∨ resume0 = [] ∨ cover0 = [] then
    match response.text with
    | some full_text =>
      if full_text = [] then ⟨resume0, cover0⟩
      else
        let fb := manual_save_fallback full_text
        ⟨if resume0 = [] then fb.resume_content else resume0,
         if cover0 = [] then fb.cover_letter_content else cover0⟩
    | none => ⟨resume0, cover0⟩
  else ⟨resume0, cover0⟩

/-- The error body of the handler's exception path:
`HTTPException(status_code=500, detail=str(e))`. -/
structure HTTPErrorResponse where
  status_code : Nat
  detail : List Char
deriving DecidableEq, Repr

/-- The request handler `optimize_career` (main.py lines 120-198), with its
two fallible collaborators (file parsing and the external model call)
embedded as `Except` values carrying the exception message `str(e)`:
any exception inside the `try` block becomes a 500 response whose detail is
that message; otherwise the processed extraction result is returned. -/
def optimize_career
    (parse_resume : Except (List Char) (List Char))
    (call_model : List Char → Except (List Char) ModelResponse) :
    Except HTTPErrorResponse ExtractionResult :=
  match parse_resume with
  | .error e => .error ⟨500, e⟩
  | .ok resume_content =>
    match call_model resume_content with
    | .error e => .error ⟨500, e⟩
    | .ok response => .ok (process_response response)

/-- Content of the last invocation with the given name, in list order
(stated from the spec's words for the refinement of the tool-call loop). -/
def lastMatchingContent (nm : List Char) : List FunctionCall → Option (List Char)
  | [] => none
  | call :: rest =>
    match lastMatchingContent nm rest with
    | some v => some v
    | none => if call.name = nm then some call.content else none

/-! ### Lemmas about the tool-call loop -/

theorem scanCalls_fst (calls : List FunctionCall) :
    ∀ r c f, (scanCalls (r, c, f) calls).1
      = (lastMatchingContent saveResumeName calls).getD r := by
  induction calls with
  | nil => intro r c f; rfl
  | cons call rest ih =>
    intro r c f
    by_cases h1 : call.name = saveResumeName
    · simp only [scanCalls, lastMatchingContent, if_pos h1]
      rw [ih]
      cases hl : lastMatchingContent saveResumeName rest <;> simp
    · by_cases h2 : call.name = saveCoverName
      · simp only [scanCalls, lastMatchingContent, if_neg h1, if_pos h2]
        rw [ih]
        cases hl : lastMatchingContent saveResumeName rest <;> simp [hl]
      · simp only [scanCalls, lastMatchingContent, if_neg h1, if_neg h2]
        rw [ih]
        cases hl : lastMatchingContent saveResumeName rest <;> simp [hl]

theorem scanCalls_snd (calls : List FunctionCall) :
    ∀ r c f, (scanCalls (r, c, f) calls).2.1
      = (lastMatchingContent saveCoverName calls).getD c := by
  induction calls with
  | nil => intro r c f; rfl
  | cons call rest ih =>
    intro r c f
    by_cases h1 : call.name = saveResumeName
    · have h2 : ¬ call.name = saveCoverName := by
        rw [h1]; decide
      simp only [scanCalls, lastMatchingContent, if_pos h1, if_neg h2]
      rw [ih]
      cases hl : lastMatchingContent saveCoverName rest <;> simp [hl]
    · by_cases h2 : call.name = saveCoverName
      · simp only [scanCalls, lastMatchingContent, if_neg h1, if_pos h2]
        rw [ih]
        cases hl : lastMatchingContent saveCoverName rest <;> simp
      · simp only [scanCalls, lastMatchingContent, if_neg h1, if_neg h2]
        rw [ih]
        cases hl : lastMatchingContent saveCoverName rest <;> simp [hl]

/-! ### Claim C1: totality of the extraction -/

/-- C1: for every model reply (structured tool invocations and/or raw text,
including empty or malformed text) the extraction returns a result carrying
both string fields `resume_content` and `cover_letter_content`; it is a total
function and never fails. -/
theorem c1_extraction_total (resp : ModelResponse) (t : List Char) :
    (∃ r c, process_response resp = ⟨r, c⟩) ∧
    (∃ r c, manual_save_fallback t = ⟨r, c⟩) :=
  ⟨⟨_, _, rfl⟩, ⟨_, _, rfl⟩⟩

/-! ### Claim C2: structured fields and overwriting -/

/-- C2 counterexample: a structured invocation `save_tailored_resume` with
content equal to the empty string is observed, yet the returned resume field
is the fallback text `"hello"`, not the invocation's content verbatim: the
code keys "filled" on non-emptiness, not on the invocation being observed. -/
theorem c2_counterexample :
    (process_response ⟨[⟨saveResumeName, []⟩], some "hello".data⟩).resume_content
        = "hello".data ∧
      "hello".data ≠ ([] : List Char) :=
  ⟨by decide, by decide⟩

/-- C2 (amended): a field set by a `save_tailored_resume` /
`save_cover_letter` invocation whose content is non-empty is returned with
the last such invocation's content verbatim and is never overwritten by a
later extraction path; a field whose invocation supplied the empty string
counts as unfilled and may be overwritten by the text fallback. -/
theorem process_resume_keep (calls : List FunctionCall) (text : Option (List Char))
    (h : (scanCalls ([], [], false) calls).1 ≠ []) :
    (process_response ⟨calls, text⟩).resume_content
      = (scanCalls ([], [], false) calls).1 := by
  cases text with
  | none =>
    simp only [process_response]
    split <;> rfl
  | some ft =>
    simp only [process_response]
    split
    · split
      · rfl
      · simp [if_neg h]
    · rfl

theorem process_cover_keep (calls : List FunctionCall) (text : Option (List Char))
    (h : (scanCalls ([], [], false) calls).2.1 ≠ []) :
    (process_response ⟨calls, text⟩).cover_letter_content
      = (scanCalls ([], [], false) calls).2.1 := by
  cases text with
  | none =>
    simp only [process_response]
    split <;> rfl
  | some ft =>
    simp only [process_response]
    split
    · split
      · rfl
      · simp [if_neg h]
    · rfl

theorem c2_nonempty_tool_fields_verbatim (resp : ModelResponse) (v : List Char) :
    (lastMatchingContent saveResumeName resp.function_calls = some v → v ≠ [] →
      (process_response resp).resume_content = v) ∧
    (lastMatchingContent saveCoverName resp.function_calls = some v → v ≠ [] →
      (process_response resp).cover_letter_content = v) := by
  obtain ⟨calls, text⟩ := resp
  constructor
  · intro hl hv
    have hr : (scanCalls ([], [], false) calls).1 = v := by
      rw [scanCalls_fst, hl]; rfl
    rw [process_resume_keep calls text (by rw [hr]; exact hv)]
    exact hr
  · intro hl hv
    have hc : (scanCalls ([], [], false) calls).2.1 = v := by
      rw [scanCalls_snd, hl]; rfl
    rw [process_cover_keep calls text (by rw [hc]; exact hv)]
    exact hc

/-- C2 witness: with both invocations present and non-empty, both fields come
back verbatim even though raw text is also present. -/
theorem c2_witness :
    (lastMatchingContent saveResumeName
        [⟨saveResumeName, "A".data⟩, ⟨saveCoverName, "B".data⟩] = some "A".data ∧
      "A".data ≠ ([] : List Char)) ∧
    (process_response
        ⟨[⟨saveResumeName, "A".data⟩, ⟨saveCoverName, "B".data⟩],
          some "ignored text".data⟩).resume_content = "A".data :=
  ⟨⟨by decide, by decide⟩,
    (c2_nonempty_tool_fields_verbatim
      ⟨[⟨saveResumeName, "A".data⟩, ⟨saveCoverName, "B".data⟩],
        some "ignored text".data⟩ "A".data).1 (by decide) (by decide)⟩

/-! ### Claim C5: the two-heading template -/

/-- C5 counterexample: a text that contains `## Tailored Resume` followed by
the line `Foo` and then `## Cover Letter` followed by `Bar`, but preceded by
an earlier occurrence of the resume heading; extraction returns the earlier
section `X`, not `Foo`, so the claim fails as a statement about every text
containing the pattern. -/
theorem c5_counterexample :
    ("## Tailored Resume\nX\n## Tailored Resume\nFoo\n## Cover Letter\nBar").data
        = ("## Tailored Resume\nX\n").data
          ++ ("## Tailored Resume\nFoo\n## Cover Letter\nBar").data ∧
      (process_response
          ⟨[], some ("## Tailored Resume\nX\n## Tailored Resume\nFoo"
            ++ "\n## Cover Letter\nBar").data⟩).resume_content ≠ "Foo".data :=
  ⟨by decide, by decide⟩

/-- C5 (amended): when the input text is exactly
`## Tailored Resume\nFoo\n## Cover Letter\nBar` (headings matched
case-insensitively, as the upper-case variant shows) and no structured
invocations are present, extraction yields `resume_content = "Foo"` and
`cover_letter_content = "Bar"`, each trimmed of surrounding whitespace. -/
theorem c5_exact_template_extraction :
    process_response
        ⟨[], some "## Tailored Resume\nFoo\n## Cover Letter\nBar".data⟩
      = ⟨"Foo".data, "Bar".data⟩ ∧
    process_response
        ⟨[], some "## TAILORED RESUME\nFoo\n## COVER LETTER\nBar".data⟩
      = ⟨"Foo".data, "Bar".data⟩ ∧
    process_response
        ⟨[], some "## Tailored Resume \nFoo\n## Cover Letter\n Bar ".data⟩
      = ⟨"Foo".data, "Bar".data⟩ :=
  ⟨by decide, by decide, by decide⟩

/-! ### Claim C9: the request-handler error boundary -/

/-- C9: every exception during file parsing or the external model call is
caught at the handler boundary and surfaced as a status-500 response whose
detail is the exception's own message, with no distinction among failure
kinds; when neither collaborator fails, the processed extraction result is
returned and no other error is surfaced. -/
theorem c9_handler_error_boundary (p : Except (List Char) (List Char))
    (m : List Char → Except (List Char) ModelResponse) :
    (∀ e, p = .error e → optimize_career p m = .error ⟨500, e⟩) ∧
    (∀ r e, p = .ok r → m r = .error e → optimize_career p m = .error ⟨500, e⟩) ∧
    (∀ r resp, p = .ok r → m r = .ok resp →
      optimize_career p m = .ok (process_response resp)) := by
  refine ⟨?_, ?_, ?_⟩
  · intro e he; subst he; rfl
  · intro r e hp hm; subst hp; simp only [optimize_career, hm]
  · intro r resp hp hm; subst hp; simp only [optimize_career, hm]

/-- C9 witness: the three paths at concrete collaborator outcomes. -/
theorem c9_witness :
    optimize_career (.error "file is corrupt".data)
        (fun _ => .ok ⟨[], none⟩) = .error ⟨500, "file is corrupt".data⟩ ∧
    optimize_career (.ok "resume".data)
        (fun _ => .error "rate limited".data) = .error ⟨500, "rate limited".data⟩ ∧
    optimize_career (.ok "resume".data)
        (fun _ => .ok ⟨[], some "advice".data⟩)
      = .ok (process_response ⟨[], some "advice".data⟩) :=
  ⟨(c9_handler_error_boundary (.error "file is corrupt".data)
      (fun _ => .ok ⟨[], none⟩)).1 "file is corrupt".data rfl,
   (c9_handler_error_boundary (.ok "resume".data)
      (fun _ => .error "rate limited".data)).2.1 "resume".data "rate limited".data rfl rfl,
   (c9_handler_error_boundary (.ok "resume".data)
      (fun _ => .ok ⟨[], some "advice".data⟩)).2.2 "resume".data
      ⟨[], some "advice".data⟩ rfl rfl⟩

/-! ### Claim C10: duplicate tool invocations -/

/-- C10: when a structured reply contains multiple invocations with the same
tool name, the tool-call loop leaves the corresponding field holding the
content of the last matching invocation in list order; earlier duplicates are
silently discarded. -/
theorem c10_last_duplicate_wins (calls : List FunctionCall) (v w : List Char) :
    (lastMatchingContent saveResumeName calls = some v →
      (scanCalls ([], [], false) calls).1 = v) ∧
    (lastMatchingContent saveCoverName calls = some w →
      (scanCalls ([], [], false) calls).2.1 = w) := by
  constructor
  · intro h; rw [scanCalls_fst, h]; rfl
  · intro h; rw [scanCalls_snd, h]; rfl

/-- C10 witness: two `save_tailored_resume` and two `save_cover_letter`
invocations; the loop keeps the second of each. -/
theorem c10_witness :
    (lastMatchingContent saveResumeName
        [⟨saveResumeName, "A1".data⟩, ⟨saveCoverName, "B1".data⟩,
          ⟨saveResumeName, "A2".data⟩, ⟨saveCoverName, "B2".data⟩] = some "A2".data ∧
      lastMatchingContent saveCoverName
        [⟨saveResumeName, "A1".data⟩, ⟨saveCoverName, "B1".data⟩,
          ⟨saveResumeName, "A2".data⟩, ⟨saveCoverName, "B2".data⟩] = some "B2".data) ∧
    (scanCalls ([], [], false)
        [⟨saveResumeName, "A1".data⟩, ⟨saveCoverName, "B1".data⟩,
          ⟨saveResumeName, "A2".data⟩, ⟨saveCoverName, "B2".data⟩]).1 = "A2".data ∧
    (scanCalls ([], [], false)
        [⟨saveResumeName, "A1".data⟩, ⟨saveCoverName, "B1".data⟩,
          ⟨saveResumeName, "A2".data⟩, ⟨saveCoverName, "B2".data⟩]).2.1 = "B2".data :=
  ⟨⟨by decide, by decide⟩,
    (c10_last_duplicate_wins
      [⟨saveResumeName, "A1".data⟩, ⟨saveCoverName, "B1".data⟩,
        ⟨saveResumeName, "A2".data⟩, ⟨saveCoverName, "B2".data⟩]
      "A2".data "B2".data).1 (by decide),
    (c10_last_duplicate_wins
      [⟨saveResumeName, "A1".data⟩, ⟨saveCoverName, "B1".data⟩,
        ⟨saveResumeName, "A2".data⟩, ⟨saveCoverName, "B2".data⟩]
      "A2".data "B2".data).2 (by decide)⟩

/-! ### Decomposition lemmas for the heading searches -/

theorem dropWhile_sub (f : Char → Bool) :
    ∀ s : List Char, ∃ p, s = p ++ s.dropWhile f := by
  intro s
  induction s with
  | nil => exact ⟨[], rfl⟩
  | cons c cs ih =>
    cases h : f c with
    | true =>
      obtain ⟨p, hp⟩ := ih
      refine ⟨c :: p, ?_⟩
      rw [List.dropWhile_cons, if_pos h, List.cons_append, ← hp]
    | false =>
      refine ⟨[], ?_⟩
      rw [List.dropWhile_cons, if_neg (by simp [h]), List.nil_append]

theorem stripPrefixCI_sub (lit : List Char) :
    ∀ u v, stripPrefixCI lit u = some v → ∃ p, u = p ++ v := by
  induction lit with
  | nil =>
    intro u v h
    simp only [stripPrefixCI, Option.some.injEq] at h
    exact ⟨[], by rw [h, List.nil_append]⟩
  | cons p ps ih =>
    intro u v h
    cases u with
    | nil => simp [stripPrefixCI] at h
    | cons c cs =>
      simp only [stripPrefixCI] at h
      split at h
      · obtain ⟨q, hq⟩ := ih cs v h
        exact ⟨c :: q, by rw [List.cons_append, ← hq]⟩
      · cases h

theorem afterLastNl_sub : ∀ u w, afterLastNl u = some w → ∃ p, u = p ++ w := by
  intro u
  induction u with
  | nil => intro w h; simp [afterLastNl] at h
  | cons c cs ih =>
    intro w h
    simp only [afterLastNl] at h
    by_cases hws : isPySpace c = true
    · rw [if_pos hws] at h
      cases hin : afterLastNl cs with
      | some r =>
        simp only [hin, Option.some.injEq] at h
        obtain ⟨p, hp⟩ := ih r hin
        exact ⟨c :: p, by rw [← h, List.cons_append, ← hp]⟩
      | none =>
        simp only [hin] at h
        by_cases hnl : c = '\n'
        · rw [if_pos hnl] at h
          simp only [Option.some.injEq] at h
          exact ⟨[c], by rw [← h]; rfl⟩
        · rw [if_neg hnl] at h
          cases h
    · rw [if_neg hws] at h
      cases h

theorem matchHeadingAt_sub (lit : List Char) :
    ∀ s r, matchHeadingAt lit s = some r → ∃ p, s = p ++ r := by
  intro s r h
  cases s with
  | nil => simp [matchHeadingAt] at h
  | cons a s1 =>
    cases s1 with
    | nil => simp [matchHeadingAt] at h
    | cons b rest =>
      simp only [matchHeadingAt] at h
      split at h
      · cases hsp : stripPrefixCI lit (rest.dropWhile isPySpace) with
        | none => rw [hsp] at h; cases h
        | some r2 =>
          rw [hsp] at h
          obtain ⟨p1, hp1⟩ := dropWhile_sub isPySpace rest
          obtain ⟨p2, hp2⟩ := stripPrefixCI_sub lit _ r2 hsp
          obtain ⟨p3, hp3⟩ := afterLastNl_sub r2 r h
          refine ⟨a :: b :: (p1 ++ (p2 ++ p3)), ?_⟩
          rw [List.cons_append, List.cons_append]
          rw [hp1, hp2, hp3]
          simp [List.append_assoc]
      · cases h

theorem searchHeading_sub (lit : List Char) (cap : List Char → List Char) :
    ∀ t o, searchHeading lit cap t = some o →
      ∃ p rest, t = p ++ rest ∧ o = cap rest := by
  intro t
  induction t with
  | nil => intro o h; simp [searchHeading] at h
  | cons c cs ih =>
    intro o h
    simp only [searchHeading] at h
    cases hm : matchHeadingAt lit (c :: cs) with
    | some rest =>
      rw [hm] at h
      simp only [Option.some.injEq] at h
      obtain ⟨p, hp⟩ := matchHeadingAt_sub lit (c :: cs) rest hm
      exact ⟨p, rest, hp, h.symm⟩
    | none =>
      rw [hm] at h
      obtain ⟨p, rest, hp, ho⟩ := ih o h
      exact ⟨c :: p, rest, by rw [List.cons_append, ← hp], ho⟩

theorem captureCover_cons₂ (c d : Char) (ds : List Char) :
    captureCover (c :: d :: ds) = c :: captureCover (d :: ds) := rfl

theorem captureCover_eq :
    ∀ s : List Char, captureCover s = s ∨ s = captureCover s ++ ['\n'] := by
  intro s
  induction s with
  | nil => exact Or.inl rfl
  | cons c cs ih =>
    cases cs with
    | nil =>
      by_cases h : c = '\n'
      · subst h; right; simp [captureCover]
      · left; simp [captureCover, h]
    | cons d ds =>
      rcases ih with h | h
      · left; rw [captureCover_cons₂, h]
      · right
        rw [captureCover_cons₂, List.cons_append]
        conv_lhs => rw [h]

/-! ### Claim C7: the last-resort path -/

theorem fallback_whole_text (t : List Char) (h1 : resumeSearch t = none)
    (h2 : codeBlocks t = []) (h3 : coverSearch t = none) :
    manual_save_fallback t = ⟨t, []⟩ := by
  have hp : fallbackPartial t = ([], []) := by
    simp [fallbackPartial, fallbackStage1, h1, h2, h3]
  simp [manual_save_fallback, hp]

/-- C7: the last-resort path triggers per-whole-result: the entire raw text
is assigned to the resume field exactly when both fields are still empty
after the heading and code-block paths (`fallbackPartial`), the cover field
then staying empty; otherwise the pre-last-resort pair is returned as is.
In particular plain prose (no headings matched, no fenced code blocks)
yields the full input text as resume and an empty cover letter. -/
theorem c7_last_resort_per_whole_result (t r c : List Char)
    (h : fallbackPartial t = (r, c)) :
    (r = [] ∧ c = [] → manual_save_fallback t = ⟨t, []⟩) ∧
    (¬(r = [] ∧ c = []) → manual_save_fallback t = ⟨r, c⟩) ∧
    (resumeSearch t = none → codeBlocks t = [] → coverSearch t = none →
      manual_save_fallback t = ⟨t, []⟩) := by
  refine ⟨?_, ?_, fun h1 h2 h3 => fallback_whole_text t h1 h2 h3⟩
  · rintro ⟨hr, hc⟩
    simp [manual_save_fallback, h, hr, hc]
  · intro hn
    simp only [manual_save_fallback, h]
    rw [if_neg hn]

/-- C7 witness: plain prose, both fields empty before the last resort. -/
theorem c7_witness :
    fallbackPartial "Just some career advice.".data = ([], []) ∧
    manual_save_fallback "Just some career advice.".data
      = ⟨"Just some career advice.".data, []⟩ :=
  ⟨by decide,
    (c7_last_resort_per_whole_result "Just some career advice.".data [] []
      (by decide)).1 ⟨rfl, rfl⟩⟩

/-! ### Claim C3: extent of the cover-letter capture -/

/-- C3 counterexample: the text has a later heading `## Notes` of the same
level after the cover-letter heading, yet the captured cover content runs to
the end of the text, not up to that heading: the cover pattern's lookahead is
end-of-text only. -/
theorem c3_counterexample :
    (manual_save_fallback "## Cover Letter\nBar\n## Notes\nX".data).cover_letter_content
        = "Bar\n## Notes\nX".data ∧
      (manual_save_fallback "## Cover Letter\nBar\n## Notes\nX".data).cover_letter_content
        ≠ "Bar".data :=
  ⟨by decide, by decide⟩

/-- C3 (amended): when the cover-letter field is filled via its markdown
heading, the captured content extends to the end of the text (excluding at
most a single final newline, by the end anchor), regardless of any later
headings, and the surrounding whitespace is trimmed from it. -/
theorem c3_cover_capture_to_end (t g : List Char)
    (h1 : (fallbackStage1 t).2 = []) (h2 : coverSearch t = some g) :
    (manual_save_fallback t).cover_letter_content = pyStrip g ∧
    ∃ p, t = p ++ g ∨ t = p ++ g ++ ['\n'] := by
  constructor
  · simp [manual_save_fallback, fallbackPartial, h1, h2]
  · obtain ⟨p, rest, hpt, ho⟩ := searchHeading_sub coverLetterLit captureCover t g h2
    rcases captureCover_eq rest with hc | hc
    · exact ⟨p, Or.inl (by rw [hpt, ho, hc])⟩
    · refine ⟨p, Or.inr ?_⟩
      rw [hpt, ho, List.append_assoc]
      conv_lhs => rw [hc]

/-- C3 witness: cover-letter heading as the last section. -/
theorem c3_witness :
    ((fallbackStage1 "## Cover Letter\nHi\n".data).2 = [] ∧
      coverSearch "## Cover Letter\nHi\n".data = some "Hi".data) ∧
    ((manual_save_fallback "## Cover Letter\nHi\n".data).cover_letter_content
        = pyStrip "Hi".data ∧
      ∃ p, "## Cover Letter\nHi\n".data = p ++ "Hi".data ∨
        "## Cover Letter\nHi\n".data = p ++ "Hi".data ++ ['\n']) :=
  ⟨⟨by decide, by decide⟩,
    c3_cover_capture_to_end "## Cover Letter\nHi\n".data "Hi".data
      (by decide) (by decide)⟩

/-! ### Claim C4: when the fenced-code-block path runs -/

/-- C4 counterexample: the cover-letter heading matches in this text, yet the
resume field is filled from the fenced code block: the code-block path is
skipped only when the tailored-resume heading matches, not when any heading
matches. -/
theorem c4_counterexample :
    coverSearch "```\nCode\n```\n## Cover Letter\nBar".data ≠ none ∧
    codeBlocks "```\nCode\n```\n## Cover Letter\nBar".data = ["Code\n".data] ∧
    (manual_save_fallback "```\nCode\n```\n## Cover Letter\nBar".data).resume_content
      = pyStrip "Code\n".data :=
  ⟨by decide, by decide, by decide⟩

/-- C4 (amended): the fenced-code-block path is skipped exactly when the
tailored-resume heading matches: in that case both returned fields are fully
determined by the two heading searches and the last-resort rule, so no field
is filled from a fenced code block; a matching cover-letter heading alone
does not prevent the code-block path. -/
theorem c4_blocks_only_when_resume_heading_fails (t g : List Char)
    (h : resumeSearch t = some g) :
    (manual_save_fallback t).cover_letter_content
      = (match coverSearch t with | some h2 => pyStrip h2 | none => []) ∧
    (manual_save_fallback t).resume_content
      = (if pyStrip g = []
            ∧ (match coverSearch t with | some h2 => pyStrip h2 | none => []) = []
         then t else pyStrip g) := by
  have hs : fallbackStage1 t = (pyStrip g, []) := by simp [fallbackStage1, h]
  have hp : fallbackPartial t
      = (pyStrip g, match coverSearch t with | some h2 => pyStrip h2 | none => []) := by
    simp only [fallbackPartial, hs]
    cases coverSearch t <;> rfl
  constructor
  · simp [manual_save_fallback, hp]
  · simp [manual_save_fallback, hp]

/-- C4 witness: resume heading present, no code block consulted. -/
theorem c4_witness :
    resumeSearch "## Tailored Resume\nFoo".data = some "Foo".data ∧
    ((manual_save_fallback "## Tailored Resume\nFoo".data).cover_letter_content
        = (match coverSearch "## Tailored Resume\nFoo".data with
            | some h2 => pyStrip h2 | none => []) ∧
      (manual_save_fallback "## Tailored Resume\nFoo".data).resume_content
        = (if pyStrip "Foo".data = []
              ∧ (match coverSearch "## Tailored Resume\nFoo".data with
                  | some h2 => pyStrip h2 | none => []) = []
           then "## Tailored Resume\nFoo".data else pyStrip "Foo".data)) :=
  ⟨by decide,
    c4_blocks_only_when_resume_heading_fails "## Tailored Resume\nFoo".data
      "Foo".data (by decide)⟩

/-! ### Claim C6: the two-code-block case -/

/-- C6 counterexample: a text with no headings and exactly two fenced code
blocks whose contents trim to the empty string; the last-resort path then
assigns the entire raw text to the resume field instead of the first block's
trimmed (empty) contents. -/
theorem c6_counterexample :
    resumeSearch "```\n \n```\n```\n \n```".data = none ∧
    coverSearch "```\n \n```\n```\n \n```".data = none ∧
    codeBlocks "```\n \n```\n```\n \n```".data = [" \n".data, " \n".data] ∧
    (process_response ⟨[], some "```\n \n```\n```\n \n```".data⟩).resume_content
      ≠ pyStrip " \n".data :=
  ⟨by decide, by decide, by decide, by decide⟩

/-- C6 (amended): for a text with no matching headings, no structured
invocations, and at least two fenced code blocks, the first block's trimmed
contents become the resume field and the second block's trimmed contents the
cover field — provided the two trimmed contents are not both empty (in that
case the last-resort path assigns the whole text to the resume field). -/
theorem c6_two_blocks_extracted (t b0 b1 : List Char) (bs : List (List Char))
    (h1 : resumeSearch t = none) (h2 : coverSearch t = none)
    (h3 : codeBlocks t = b0 :: b1 :: bs)
    (h4 : ¬(pyStrip b0 = [] ∧ pyStrip b1 = [])) :
    process_response ⟨[], some t⟩ = ⟨pyStrip b0, pyStrip b1⟩ := by
  have ht : ¬ t = [] := by
    intro h; rw [h] at h3; simp [codeBlocks, scanBlocksFuel] at h3
  have hs : fallbackStage1 t = (pyStrip b0, pyStrip b1) := by
    simp [fallbackStage1, h1, h3]
  have hp : fallbackPartial t = (pyStrip b0, pyStrip b1) := by
    simp only [fallbackPartial, hs, h2]
    split <;> rfl
  have hm : manual_save_fallback t = ⟨pyStrip b0, pyStrip b1⟩ := by
    simp only [manual_save_fallback, hp]
    rw [if_neg h4]
  simp [process_response, scanCalls, ht, hm]

/-- C6 witness: two blocks, the second tagged as markdown. -/
theorem c6_witness :
    (resumeSearch "```\nA\n```\n```markdown\nB\n```".data = none ∧
      coverSearch "```\nA\n```\n```markdown\nB\n```".data = none ∧
      codeBlocks "```\nA\n```\n```markdown\nB\n```".data = ["A\n".data, "B\n".data] ∧
      ¬(pyStrip "A\n".data = [] ∧ pyStrip "B\n".data = [])) ∧
    process_response ⟨[], some "```\nA\n```\n```markdown\nB\n```".data⟩
      = ⟨pyStrip "A\n".data, pyStrip "B\n".data⟩ :=
  ⟨⟨by decide, by decide, by decide, by decide⟩,
    c6_two_blocks_extracted "```\nA\n```\n```markdown\nB\n```".data
      "A\n".data "B\n".data [] (by decide) (by decide) (by decide) (by decide)⟩

/-! ### Append-monotonicity of the heading searches -/

theorem stripPrefixCI_append (lit : List Char) :
    ∀ u v w, stripPrefixCI lit u = some v →
      stripPrefixCI lit (u ++ w) = some (v ++ w) := by
  induction lit with
  | nil =>
    intro u v w h
    simp only [stripPrefixCI, Option.some.injEq] at h
    rw [← h]
    rfl
  | cons p ps ih =>
    intro u v w h
    cases u with
    | nil => simp [stripPrefixCI] at h
    | cons c cs =>
      rw [List.cons_append]
      simp only [stripPrefixCI] at h ⊢
      by_cases hc : c.toLower = p
      · rw [if_pos hc] at h ⊢
        exact ih cs v w h
      · rw [if_neg hc] at h
        cases h

theorem afterLastNl_append :
    ∀ u v w, afterLastNl u = some v → ∃ v2, afterLastNl (u ++ w) = some v2 := by
  intro u
  induction u with
  | nil => intro v w h; simp [afterLastNl] at h
  | cons c cs ih =>
    intro v w h
    simp only [afterLastNl] at h
    by_cases hws : isPySpace c = true
    · rw [if_pos hws] at h
      rw [List.cons_append]
      simp only [afterLastNl, if_pos hws]
      cases hin : afterLastNl cs with
      | some r =>
        obtain ⟨v2, hv2⟩ := ih r w hin
        simp only [hv2]
        exact ⟨v2, rfl⟩
      | none =>
        simp only [hin] at h
        by_cases hnl : c = '\n'
        · cases hout : afterLastNl (cs ++ w) with
          | some r2 => simp only [hout]; exact ⟨r2, rfl⟩
          | none => simp only [hout, if_pos hnl]; exact ⟨cs ++ w, rfl⟩
        · rw [if_neg hnl] at h
          cases h
    · rw [if_neg hws] at h
      cases h

theorem dropWhile_append_ne (f : Char → Bool) :
    ∀ (u w : List Char), u.dropWhile f ≠ [] →
      (u ++ w).dropWhile f = u.dropWhile f ++ w := by
  intro u
  induction u with
  | nil => intro w h; exact absurd rfl h
  | cons c cs ih =>
    intro w h
    rw [List.cons_append, List.dropWhile_cons, List.dropWhile_cons]
    rw [List.dropWhile_cons] at h
    by_cases hc : f c = true
    · rw [if_pos hc, if_pos hc]
      rw [if_pos hc] at h
      exact ih w h
    · rw [if_neg hc, if_neg hc, List.cons_append]

theorem matchHeadingAt_append (lit : List Char) :
    ∀ s r w, matchHeadingAt lit s = some r →
      ∃ r2, matchHeadingAt lit (s ++ w) = some r2 := by
  intro s r w h
  cases s with
  | nil => simp [matchHeadingAt] at h
  | cons a s1 =>
    cases s1 with
    | nil => simp [matchHeadingAt] at h
    | cons b rest =>
      simp only [matchHeadingAt] at h
      by_cases hab : a = '#' ∧ b = '#'
      · rw [if_pos hab] at h
        rw [List.cons_append, List.cons_append]
        simp only [matchHeadingAt, if_pos hab]
        cases hsp : stripPrefixCI lit (rest.dropWhile isPySpace) with
        | none => rw [hsp] at h; cases h
        | some r2 =>
          simp only [hsp] at h
          have hne : rest.dropWhile isPySpace ≠ [] := by
            intro hnil
            rw [hnil] at hsp
            cases lit with
            | nil =>
              simp only [stripPrefixCI, Option.some.injEq] at hsp
              rw [← hsp] at h
              simp [afterLastNl] at h
            | cons p ps => simp [stripPrefixCI] at hsp
          have hsp2 := stripPrefixCI_append lit _ r2 w hsp
          rw [dropWhile_append_ne isPySpace rest w hne]
          simp only [hsp2]
          exact afterLastNl_append r2 r w h
      · rw [if_neg hab] at h
        cases h

theorem searchHeading_append_right (lit : List Char) (cap : List Char → List Char) :
    ∀ s o w, searchHeading lit cap s = some o →
      ∃ o2, searchHeading lit cap (s ++ w) = some o2 := by
  intro s
  induction s with
  | nil => intro o w h; simp [searchHeading] at h
  | cons c cs ih =>
    intro o w h
    simp only [searchHeading] at h
    rw [List.cons_append]
    simp only [searchHeading]
    cases hm : matchHeadingAt lit (c :: cs) with
    | some rest =>
      obtain ⟨r2, hr2⟩ := matchHeadingAt_append lit (c :: cs) rest w hm
      rw [List.cons_append] at hr2
      simp only [hr2]
      exact ⟨cap r2, rfl⟩
    | none =>
      simp only [hm] at h
      obtain ⟨o2, ho2⟩ := ih o w h
      cases hm2 : matchHeadingAt lit (c :: (cs ++ w)) with
      | some rest2 => simp only [hm2]; exact ⟨cap rest2, rfl⟩
      | none => simp only [hm2]; exact ⟨o2, ho2⟩

theorem searchHeading_append_left (lit : List Char) (cap : List Char → List Char) :
    ∀ p s o, searchHeading lit cap s = some o →
      ∃ o2, searchHeading lit cap (p ++ s) = some o2 := by
  intro p
  induction p with
  | nil => intro s o h; exact ⟨o, h⟩
  | cons c cs ih =>
    intro s o h
    obtain ⟨o2, ho2⟩ := ih s o h
    rw [List.cons_append]
    simp only [searchHeading]
    cases hm : matchHeadingAt lit (c :: (cs ++ s)) with
    | some rest => simp only [hm]; exact ⟨cap rest, rfl⟩
    | none => simp only [hm]; exact ⟨o2, ho2⟩

theorem searchHeading_none_infix (lit : List Char) (cap : List Char → List Char)
    (p m q : List Char) (h : searchHeading lit cap (p ++ m ++ q) = none) :
    searchHeading lit cap m = none := by
  cases hm : searchHeading lit cap m with
  | none => rfl
  | some o =>
    obtain ⟨o2, ho2⟩ := searchHeading_append_right lit cap m o q hm
    obtain ⟨o3, ho3⟩ := searchHeading_append_left lit cap p (m ++ q) o2 ho2
    rw [← List.append_assoc] at ho3
    rw [h] at ho3
    cases ho3

/-! ### Decomposition of the fence scan -/

theorem startsWithTriple_shape :
    ∀ s, startsWithTriple s = true →
      ∃ rest, s = backtick :: backtick :: backtick :: rest ∧ s.drop 3 = rest := by
  intro s h
  cases s with
  | nil => simp [startsWithTriple] at h
  | cons a s1 =>
    cases s1 with
    | nil => simp [startsWithTriple] at h
    | cons b s2 =>
      cases s2 with
      | nil => simp [startsWithTriple] at h
      | cons c rest =>
        simp only [startsWithTriple, Bool.and_eq_true, beq_iff_eq] at h
        obtain ⟨⟨ha, hb⟩, hc⟩ := h
        subst ha; subst hb; subst hc
        exact ⟨rest, rfl, rfl⟩

theorem startsWithTriple_append :
    ∀ s w, startsWithTriple s = true → startsWithTriple (s ++ w) = true := by
  intro s w h
  obtain ⟨rest, hs, _⟩ := startsWithTriple_shape s h
  rw [hs]
  simp [startsWithTriple, List.cons_append]

theorem grabToFence_spec :
    ∀ s g r, grabToFence s = some (g, r) →
      s = g ++ backtick :: backtick :: backtick :: r ∧ containsTriple g = false := by
  intro s
  induction s with
  | nil => intro g r h; simp [grabToFence] at h
  | cons c cs ih =>
    intro g r h
    simp only [grabToFence] at h
    by_cases hst : startsWithTriple (c :: cs) = true
    · rw [if_pos hst] at h
      simp only [Option.some.injEq, Prod.mk.injEq] at h
      obtain ⟨hg, hr⟩ := h
      obtain ⟨rest, hshape, hdrop⟩ := startsWithTriple_shape (c :: cs) hst
      constructor
      · rw [← hg, List.nil_append, hshape]
        have hrr : r = rest := by rw [← hr, ← hdrop]; rfl
        rw [hrr]
      · rw [← hg]; rfl
    · rw [if_neg hst] at h
      cases hgf : grabToFence cs with
      | none =>
        simp only [hgf] at h
        exact Option.noConfusion h
      | some pr =>
        obtain ⟨g1, r1⟩ := pr
        simp only [hgf, Option.some.injEq, Prod.mk.injEq] at h
        obtain ⟨hg, hr⟩ := h
        obtain ⟨hcs, hct⟩ := ih g1 r1 hgf
        constructor
        · rw [← hg, ← hr, List.cons_append, hcs]
        · rw [← hg]
          simp only [containsTriple, hct, Bool.or_false]
          cases hsw : startsWithTriple (c :: g1) with
          | false => rfl
          | true =>
            exfalso
            obtain ⟨rest2, hshape2, _⟩ := startsWithTriple_shape (c :: g1) hsw
            apply hst
            rw [hcs]
            injection hshape2 with hc1 hg1
            subst hc1
            rw [hg1]
            simp [startsWithTriple, List.cons_append]

theorem isPrefixOf_drop :
    ∀ (p u : List Char), p.isPrefixOf u = true → u = p ++ u.drop p.length := by
  intro p
  induction p with
  | nil => intro u h; rfl
  | cons a ps ih =>
    intro u h
    cases u with
    | nil => simp [List.isPrefixOf] at h
    | cons b us =>
      simp only [List.isPrefixOf, Bool.and_eq_true, beq_iff_eq] at h
      obtain ⟨hab, hrest⟩ := h
      subst hab
      rw [List.cons_append, List.length_cons, List.drop_succ_cons]
      rw [← ih us hrest]

theorem afterFenceOpen_sub :
    ∀ u r, afterFenceOpen u = some r → ∃ p, u = p ++ r := by
  intro u r h
  simp only [afterFenceOpen] at h
  by_cases hmd : mdTag.isPrefixOf u = true
  · rw [if_pos hmd] at h
    simp only [Option.some.injEq] at h
    exact ⟨mdTag, by rw [← h]; exact isPrefixOf_drop mdTag u hmd⟩
  · rw [if_neg hmd] at h
    by_cases hh : u.head? = some '\n'
    · rw [if_pos hh] at h
      simp only [Option.some.injEq] at h
      cases u with
      | nil => simp at hh
      | cons c cs =>
        refine ⟨[c], ?_⟩
        rw [← h]
        rfl
    · rw [if_neg hh] at h
      cases h

theorem tryFenceAt_spec :
    ∀ s g rest, tryFenceAt s = some (g, rest) →
      (∃ p, s = p ++ g ++ backtick :: backtick :: backtick :: rest) ∧
        containsTriple g = false := by
  intro s g rest h
  simp only [tryFenceAt] at h
  by_cases hst : startsWithTriple s = true
  · rw [if_pos hst] at h
    cases hfo : afterFenceOpen (s.drop 3) with
    | none =>
      simp only [hfo] at h
      exact Option.noConfusion h
    | some r =>
      simp only [hfo] at h
      obtain ⟨hsr, hct⟩ := grabToFence_spec r g rest h
      obtain ⟨rest3, hshape, hdrop⟩ := startsWithTriple_shape s hst
      obtain ⟨p2, hp2⟩ := afterFenceOpen_sub (s.drop 3) r hfo
      refine ⟨⟨backtick :: backtick :: backtick :: p2, ?_⟩, hct⟩
      have h3 : rest3 = p2 ++ r := by rw [← hdrop, hp2]
      rw [hshape, h3, hsr]
      simp [List.cons_append, List.append_assoc]
  · rw [if_neg hst] at h
    cases h

theorem scanBlocks_head :
    ∀ n s b bs, scanBlocksFuel n s = b :: bs →
      (∃ p q, s = p ++ b ++ q) ∧ containsTriple b = false := by
  intro n
  induction n with
  | zero => intro s b bs h; simp [scanBlocksFuel] at h
  | succ n ih =>
    intro s b bs h
    cases s with
    | nil => simp [scanBlocksFuel] at h
    | cons c cs =>
      simp only [scanBlocksFuel] at h
      cases hf : tryFenceAt (c :: cs) with
      | some pr =>
        obtain ⟨g, rest⟩ := pr
        simp only [hf, List.cons.injEq] at h
        obtain ⟨hg, _⟩ := h
        obtain ⟨⟨p1, hp1⟩, hct⟩ := tryFenceAt_spec (c :: cs) g rest hf
        subst hg
        exact ⟨⟨p1, backtick :: backtick :: backtick :: rest, hp1⟩, hct⟩
      | none =>
        simp only [hf] at h
        obtain ⟨⟨p1, q1, hpq⟩, hct⟩ := ih cs b bs h
        refine ⟨⟨c :: p1, q1, ?_⟩, hct⟩
        rw [hpq]
        simp [List.cons_append]

theorem scanBlocks_nil_of_noTriple :
    ∀ n s, containsTriple s = false → scanBlocksFuel n s = [] := by
  intro n
  induction n with
  | zero => intro s h; rfl
  | succ n ih =>
    intro s h
    cases s with
    | nil => rfl
    | cons c cs =>
      simp only [containsTriple, Bool.or_eq_false_iff] at h
      obtain ⟨h1, h2⟩ := h
      simp only [scanBlocksFuel]
      have hf : tryFenceAt (c :: cs) = none := by
        simp only [tryFenceAt]
        rw [if_neg (by simp [h1])]
      simp only [hf]
      exact ih cs h2

theorem containsTriple_mono_left :
    ∀ p m, containsTriple m = true → containsTriple (p ++ m) = true := by
  intro p m h
  induction p with
  | nil => exact h
  | cons c cs ih =>
    rw [List.cons_append]
    simp only [containsTriple, ih, Bool.or_true]

theorem containsTriple_mono_right :
    ∀ m w, containsTriple m = true → containsTriple (m ++ w) = true := by
  intro m
  induction m with
  | nil => intro w h; simp [containsTriple] at h
  | cons c cs ih =>
    intro w h
    simp only [containsTriple, Bool.or_eq_true] at h
    rw [List.cons_append]
    simp only [containsTriple, Bool.or_eq_true]
    rcases h with h | h
    · left
      have := startsWithTriple_append (c :: cs) w h
      rw [List.cons_append] at this
      exact this
    · right; exact ih w h

theorem containsTriple_middle_false (p m q : List Char)
    (h : containsTriple (p ++ m ++ q) = false) : containsTriple m = false := by
  cases hm : containsTriple m with
  | false => rfl
  | true =>
    have h1 := containsTriple_mono_right m q hm
    have h2 := containsTriple_mono_left p (m ++ q) h1
    rw [← List.append_assoc] at h2
    rw [h] at h2
    cases h2

theorem pyStrip_sub : ∀ s : List Char, ∃ p q, s = p ++ pyStrip s ++ q := by
  intro s
  obtain ⟨p, hp⟩ := dropWhile_sub isPySpace s
  obtain ⟨p2, hp2⟩ := dropWhile_sub isPySpace (s.dropWhile isPySpace).reverse
  refine ⟨p, p2.reverse, ?_⟩
  have h3 : s.dropWhile isPySpace = pyStrip s ++ p2.reverse := by
    have hrev := congrArg List.reverse hp2
    rw [List.reverse_reverse, List.reverse_append] at hrev
    exact hrev
  conv_lhs => rw [hp, h3]
  rw [List.append_assoc]

/-! ### Claim C8: idempotence of the text extraction -/

theorem fallback_one_block (t b0 : List Char)
    (h1 : resumeSearch t = none) (h2 : coverSearch t = none)
    (h3 : codeBlocks t = [b0]) :
    manual_save_fallback t
      = ⟨if pyStrip b0 = [] then t else pyStrip b0, []⟩ := by
  have hs : fallbackStage1 t = (pyStrip b0, []) := by
    simp only [fallbackStage1, h1, h3]
  have hp : fallbackPartial t = (pyStrip b0, []) := by
    simp only [fallbackPartial, hs, h2]
    simp
  simp only [manual_save_fallback, hp]
  simp

theorem fallback_two_blocks (t b0 b1 : List Char) (bs : List (List Char))
    (h1 : resumeSearch t = none) (h2 : coverSearch t = none)
    (h3 : codeBlocks t = b0 :: b1 :: bs) :
    manual_save_fallback t
      = ⟨if pyStrip b0 = [] ∧ pyStrip b1 = [] then t else pyStrip b0,
         pyStrip b1⟩ := by
  have hs : fallbackStage1 t = (pyStrip b0, pyStrip b1) := by
    simp only [fallbackStage1, h1, h3]
  have hp : fallbackPartial t = (pyStrip b0, pyStrip b1) := by
    simp only [fallbackPartial, hs, h2]
    split <;> rfl
  simp only [manual_save_fallback, hp]

/-- Inertness of an extracted block: the first captured block of a text in
which no heading matched contains no fence and no heading, so running the
extraction on its trimmed contents returns them whole. -/
theorem strip_block_inert (t b0 : List Char) (bs : List (List Char))
    (h1 : resumeSearch t = none) (h2 : coverSearch t = none)
    (hb : codeBlocks t = b0 :: bs) :
    manual_save_fallback (pyStrip b0) = ⟨pyStrip b0, []⟩ := by
  obtain ⟨⟨p, q, hpq⟩, hct⟩ := scanBlocks_head t.length t b0 bs hb
  obtain ⟨p2, q2, hpq2⟩ := pyStrip_sub b0
  have hPQ : t = (p ++ p2) ++ pyStrip b0 ++ (q2 ++ q) := by
    rw [hpq]
    conv_lhs => rw [hpq2]
    simp [List.append_assoc]
  have hr1 : resumeSearch (pyStrip b0) = none := by
    refine searchHeading_none_infix tailoredResumeLit captureResume
      (p ++ p2) (pyStrip b0) (q2 ++ q) ?_
    rw [← hPQ]
    exact h1
  have hr2 : coverSearch (pyStrip b0) = none := by
    refine searchHeading_none_infix coverLetterLit captureCover
      (p ++ p2) (pyStrip b0) (q2 ++ q) ?_
    rw [← hPQ]
    exact h2
  have hct2 : containsTriple (pyStrip b0) = false := by
    refine containsTriple_middle_false p2 (pyStrip b0) q2 ?_
    rw [← hpq2]
    exact hct
  have hcb : codeBlocks (pyStrip b0) = [] :=
    scanBlocks_nil_of_noTriple (pyStrip b0).length (pyStrip b0) hct2
  exact fallback_whole_text (pyStrip b0) hr1 hcb hr2

/-- C8: idempotence of the text extraction: for every input text in which
neither the tailored-resume nor the cover-letter heading pattern matches,
re-running the extraction on the already-extracted resume field alone
returns that string unchanged as the resume field. -/
theorem c8_idempotent_resume (t : List Char)
    (h1 : resumeSearch t = none) (h2 : coverSearch t = none) :
    (manual_save_fallback ((manual_save_fallback t).resume_content)).resume_content
      = (manual_save_fallback t).resume_content := by
  cases hb : codeBlocks t with
  | nil =>
    have hm := fallback_whole_text t h1 hb h2
    simp [hm]
  | cons b0 bs =>
    cases bs with
    | nil =>
      have hm := fallback_one_block t b0 h1 h2 hb
      by_cases hc : pyStrip b0 = []
      · simp [hm, hc]
      · have hi := strip_block_inert t b0 [] h1 h2 hb
        simp [hm, if_neg hc, hi]
    | cons b1 bs2 =>
      have hm := fallback_two_blocks t b0 b1 bs2 h1 h2 hb
      by_cases hc : pyStrip b0 = [] ∧ pyStrip b1 = []
      · simp [hm, hc.1, hc.2]
      · have hi := strip_block_inert t b0 (b1 :: bs2) h1 h2 hb
        simp [hm, if_neg hc, hi]

/-- C8 witness: one fenced block inside prose; the extracted resume is the
block's trimmed contents, and re-running the extraction returns it. -/
theorem c8_witness :
    (resumeSearch "see ```\nMy Resume\n``` ok".data = none ∧
      coverSearch "see ```\nMy Resume\n``` ok".data = none) ∧
    (manual_save_fallback
        ((manual_save_fallback "see ```\nMy Resume\n``` ok".data).resume_content)).resume_content
      = (manual_save_fallback "see ```\nMy Resume\n``` ok".data).resume_content :=
  ⟨⟨by decide, by decide⟩,
    c8_idempotent_resume "see ```\nMy Resume\n``` ok".data (by decide) (by decide)⟩
